import Mathlib

/-!
Verification of the Transformer reimplementation in model.py.

Tensors are modeled per batch element as lists: a sequence of positions,
each position a list of real-valued features (type Mat below).  Machine
floats are modeled as exact real numbers.  The batch axis of the source is
handled by mapping the per-example computation over a list of examples,
which matches the elementwise semantics of every batched operation used in
the source.  Dropout layers are stochastic scaling/zeroing that preserve
shape; they are modeled as the identity (their eval-mode semantics), which
is the only behavior the verified properties depend on.
-/

set_option maxHeartbeats 1000000

/-- A per-example 2-D tensor: rows are sequence positions, entries are features. -/
abbrev Mat : Type := List (List ℝ)

/-- Dot product of two feature vectors (one step of torch.matmul). -/
def dotL (xs ys : List ℝ) : ℝ :=
  (List.zipWith (· * ·) xs ys).sum

/-- Softmax along a row, as computed by nn.Softmax(dim = -1): entry j becomes
exp(row j) divided by the sum of exponentials over the whole row. -/
noncomputable def softmaxL (xs : List ℝ) : List ℝ :=
  xs.map fun a => Real.exp a / (xs.map Real.exp).sum

/-- The fill value used by ScaledDotProductAttention.forward (model.py line 97):
torch.tensor(-1e-9).  Note the magnitude: this is negative ten to the minus nine,
a number extremely close to zero, not a large-magnitude negative number. -/
noncomputable def negFill : ℝ := -1e-9

/-- torch.ones(q, k) for one batch element (model.py line 83). -/
def onesL (q k : ℕ) : Mat :=
  List.replicate q (List.replicate k (1 : ℝ))

/-- pad_mask.unsqueeze(2) * pad_mask.unsqueeze(1) for one batch element
(model.py line 87): the outer product of the padding mask with itself. -/
def outerL (v : List ℝ) : Mat :=
  v.map fun a => v.map fun b => a * b

/-- Elementwise product of two 2-D tensors (the mask multiplications on
model.py lines 89 and 93). -/
def hadamardL (A B : Mat) : Mat :=
  List.zipWith (List.zipWith (· * ·)) A B

/-- The combined mask built by ScaledDotProductAttention.forward
(model.py lines 83-93): start from all ones (q x k), multiply by the outer
product of the padding mask with itself when one is given, then multiply by
the attention mask when one is given. -/
def buildMaskL (q k : ℕ) (pm : Option (List ℝ)) (am : Option Mat) : Mat :=
  let m0 := onesL q k
  let m1 := match pm with
    | none => m0
    | some v => hadamardL m0 (outerL v)
  match am with
  | none => m1
  | some A => hadamardL m1 A

/-- torch.tril: zero out every entry strictly above the diagonal. -/
def trilL (A : Mat) : Mat :=
  A.enum.map fun ir => ir.2.enum.map fun jc => if jc.1 ≤ ir.1 then jc.2 else 0

/-- The causal mask built by Decoder.forward (model.py lines 204-205):
torch.tril(torch.ones(L, L)) for one batch element. -/
def outputMaskL (L : ℕ) : Mat :=
  trilL (onesL L L)

/-- The masked score matrix of ScaledDotProductAttention.forward
(model.py lines 79-97) for one batch element and one head: raw scores are
dot products scaled by the square root of the last dimension of K, and the
score is replaced by negFill wherever the combined mask M is zero
(torch.where on line 95). -/
noncomputable def maskedScoresL (Qm Km M : Mat) : Mat :=
  Qm.enum.map fun iq => Km.enum.map fun jk =>
    if (M.getD iq.1 []).getD jk.1 0 ≠ 0 then
      dotL iq.2 jk.2 / Real.sqrt ((Km.headD []).length)
    else negFill

/-- The post-softmax attention weights (model.py line 99). -/
noncomputable def attnWeightsL (Qm Km M : Mat) : Mat :=
  (maskedScoresL Qm Km M).map softmaxL

/-- One row of torch.matmul(softmax, V) (model.py line 101): entry t is the
weighted sum over key positions j of V j t. -/
noncomputable def vAggrL (w : List ℝ) (Vm : Mat) : List ℝ :=
  (List.range ((Vm.headD []).length)).map fun t =>
    ((w.zip Vm).map fun p => p.1 * p.2.getD t 0).sum

/-- ScaledDotProductAttention.forward for one batch element and one head,
given the already-combined mask M (the mask is built once per call from the
batch-level sizes and broadcast over the head axis, model.py line 95). -/
noncomputable def sdpaHeadL (Qm Km Vm M : Mat) : Mat :=
  (attnWeightsL Qm Km M).map fun w => vAggrL w Vm

/-- torch.split(row, d, dim = -1) along the feature axis of a single position:
cut the row into consecutive chunks of size d, the final chunk possibly
shorter (model.py line 122 applies this to the last tensor dimension). -/
def torchSplit (d : ℕ) : List ℝ → List (List ℝ)
  | [] => []
  | x :: xs => ((x :: xs).take d) :: torchSplit d (xs.drop (d - 1))
termination_by xs => xs.length
decreasing_by
  simp only [List.length_drop, List.length_cons]
  omega

/-- torch.stack over a list of chunks (model.py line 123): succeeds exactly
when the list is nonempty and all chunks have the same length; stacking an
empty list or ragged chunks raises, modeled as none. -/
def torchStack (chunks : List (List ℝ)) : Option (List (List ℝ)) :=
  match chunks with
  | [] => none
  | c :: cs => if cs.all fun x => x.length = c.length then some (c :: cs) else none

/-- MultiHeadAttention.mh_convert (model.py lines 120-123) restricted to the
feature row of a single position: split the features into chunks of size d
and stack the chunks along a new head axis. -/
def mhConvertRow (d : ℕ) (row : List ℝ) : Option (List (List ℝ)) :=
  torchStack (torchSplit d row)

/-- The features handed to head h by mh_convert: chunk h of the feature axis,
namely feature indices h*d up to h*d+d, taken at every position. -/
def headSlice (d h : ℕ) (m : Mat) : Mat :=
  m.map fun row => (row.drop (h * d)).take d

/-- The stacked output of mh_convert over a whole projected tensor: one matrix
per head (model.py line 123). -/
def headsOf (d nH : ℕ) (m : Mat) : List Mat :=
  (List.range nH).map fun h => headSlice d h m

/-- The concat step of MultiHeadAttention.forward (model.py lines 142-143):
torch.split along the head axis into single heads, torch.cat along the
feature axis, squeeze.  Position s of the result is the concatenation of
position s of every head. -/
def concatHeadsL (heads : List Mat) : Mat :=
  (List.range ((heads.headD []).length)).map fun s =>
    (heads.map fun A => A.getD s []).flatten

/-- Parameters of one nn.Linear layer: weight w (output feature, input
feature) and bias b. -/
structure LinParams where
  w : ℕ → ℕ → ℝ
  b : ℕ → ℝ

/-- nn.Linear applied position-wise: output feature f is the dot product of
the input features with weight row f plus the bias. -/
noncomputable def linearL (outDim : ℕ) (p : LinParams) (x : Mat) : Mat :=
  x.map fun row =>
    (List.range outDim).map fun f =>
      (row.enum.map fun tv => tv.2 * p.w f tv.1).sum + p.b f

/-- The four projections owned by one MultiHeadAttention module
(model.py lines 113-118). -/
structure MHAP where
  q : LinParams
  k : LinParams
  v : LinParams
  o : LinParams

/-- MultiHeadAttention.forward (model.py lines 125-145) for one batch
element: project Q, K, V; split each projection into nH head chunks of size
d; run scaled dot-product attention per head against the combined mask built
once from the projected sizes (the source builds it inside
ScaledDotProductAttention.forward from the batch-level q/k lengths and
broadcasts it over the head axis); concatenate the heads; apply the output
projection. -/
noncomputable def mhaL (hidden nH d : ℕ) (p : MHAP) (Qx Kx Vx : Mat)
    (pm : Option (List ℝ)) (am : Option Mat) : Mat :=
  let qp := linearL hidden p.q Qx
  let kp := linearL hidden p.k Kx
  let vp := linearL hidden p.v Vx
  let M := buildMaskL qp.length kp.length pm am
  linearL hidden p.o (concatHeadsL ((List.range nH).map fun h =>
    sdpaHeadL (headSlice d h qp) (headSlice d h kp) (headSlice d h vp) M))

/-- Modelled from the spec (section 8, first testable property): the
single-head reference computation that MultiHeadAttention with n_head = 1 is
claimed to equal — apply the q/k/v projections, run ScaledDotProductAttention
directly on the unsplit projected tensors, and apply the output projection. -/
noncomputable def specSingleHeadMHA (hidden : ℕ) (p : MHAP) (Qx Kx Vx : Mat)
    (pm : Option (List ℝ)) (am : Option Mat) : Mat :=
  let qp := linearL hidden p.q Qx
  let kp := linearL hidden p.k Kx
  let vp := linearL hidden p.v Vx
  linearL hidden p.o (sdpaHeadL qp kp vp (buildMaskL qp.length kp.length pm am))

/-- One entry of the sinusoidal table built by PositionalEncoding.__init__
(model.py lines 33-41): even feature index j gets sin(pos / 10000^(j/hidden)),
odd feature index j gets cos(pos / 10000^((j-1)/hidden)); the divisor list
"10000 ** (even_index / hidden_size)" pairs even index 2i and odd index 2i+1
with the same exponent 2i/hidden. -/
noncomputable def positionalEncoding (hidden : ℕ) (pos j : ℕ) : ℝ :=
  if j % 2 = 0 then
    Real.sin ((pos : ℝ) / (10000 : ℝ) ^ ((j : ℝ) / (hidden : ℝ)))
  else
    Real.cos ((pos : ℝ) / (10000 : ℝ) ^ (((j : ℝ) - 1) / (hidden : ℝ)))

/-- The full max_len x hidden positional-encoding table. -/
noncomputable def posTableL (maxLen hidden : ℕ) : Mat :=
  (List.range maxLen).map fun pos =>
    (List.range hidden).map fun j => positionalEncoding hidden pos j

/-- Elementwise addition of two 2-D tensors (residual connections and the
embedding-plus-positional sum). -/
def addL (A B : Mat) : Mat :=
  List.zipWith (List.zipWith (· + ·)) A B

/-- WordEmbedding.forward (model.py lines 61-65) for one batch element:
look up each token id in the embedding table and add the first seq_len rows
of the positional-encoding table. -/
noncomputable def embedL (hidden maxLen : ℕ) (emb : ℕ → ℕ → ℝ) (ids : List ℕ) : Mat :=
  addL (ids.map fun tok => (List.range hidden).map fun f => emb tok f)
    ((posTableL maxLen hidden).take ids.length)

/-- nn.LayerNorm over the feature axis of each position, with the default
epsilon 1e-5, learned scale g and shift b. -/
noncomputable def layerNormL (g b : ℕ → ℝ) (x : Mat) : Mat :=
  x.map fun row =>
    let m := row.sum / (row.length : ℝ)
    let v := (row.map fun a => (a - m) ^ 2).sum / (row.length : ℝ)
    row.enum.map fun ta => (ta.2 - m) / Real.sqrt (v + 1e-5) * g ta.1 + b ta.1

/-- ReLU applied elementwise. -/
def reluL (x : Mat) : Mat :=
  x.map (List.map fun a => max a 0)

/-- PositionWiseFF.forward (model.py lines 154-157): linear to ff features,
ReLU, linear back to hidden features. -/
noncomputable def ffL (hidden ff : ℕ) (p1 p2 : LinParams) (x : Mat) : Mat :=
  linearL hidden p2 (reluL (linearL ff p1 x))

/-- Parameters of one Encoder layer (model.py lines 159-169). -/
structure EncP where
  attn : MHAP
  ff1 : LinParams
  ff2 : LinParams
  g1 : ℕ → ℝ
  b1 : ℕ → ℝ
  g2 : ℕ → ℝ
  b2 : ℕ → ℝ

/-- Encoder.forward (model.py lines 171-180) for one batch element:
self-attention with the source padding mask, residual, normalize;
feed-forward, residual, normalize. -/
noncomputable def encoderL (hidden nH d ff : ℕ) (p : EncP) (x : Mat)
    (srcMask : List ℝ) : Mat :=
  let s1 := mhaL hidden nH d p.attn x x x (some srcMask) none
  let x1 := layerNormL p.g1 p.b1 (addL x s1)
  layerNormL p.g2 p.b2 (addL x1 (ffL hidden ff p.ff1 p.ff2 x1))

/-- Parameters of one Decoder layer (model.py lines 182-194). -/
structure DecP where
  attn1 : MHAP
  attn2 : MHAP
  ff1 : LinParams
  ff2 : LinParams
  g1 : ℕ → ℝ
  b1 : ℕ → ℝ
  g2 : ℕ → ℝ
  b2 : ℕ → ℝ
  g3 : ℕ → ℝ
  b3 : ℕ → ℝ

/-- The cross-attention call of Decoder.forward (model.py line 213):
mh_attention2(Q = y, K = x, V = x) with no pad_mask and no attn_mask (both
keyword arguments are left at their None defaults; the variant passing
pad_mask = src_mask is commented out on line 214). -/
noncomputable def crossAttnStage (hidden nH d : ℕ) (p : MHAP) (x y : Mat) : Mat :=
  mhaL hidden nH d p y x x none none

/-- The attention weights computed for head h inside the cross-attention call
of Decoder.forward: the weights of sdpaHeadL applied to the head-h slices of
the projected decoder activation y (queries) and encoder output x (keys),
against the combined mask built from pad_mask = None and attn_mask = None. -/
noncomputable def crossAttnHeadWeights (hidden d h : ℕ) (p : MHAP) (x y : Mat) : Mat :=
  attnWeightsL (headSlice d h (linearL hidden p.q y)) (headSlice d h (linearL hidden p.k x))
    (buildMaskL (linearL hidden p.q y).length (linearL hidden p.k x).length none none)

/-- Decoder.forward (model.py lines 196-221) for one batch element: build the
causal mask fresh from the running target length, masked self-attention with
the target padding mask and the causal mask, residual, normalize;
cross-attention against the encoder output with no mask, residual, normalize;
feed-forward, residual, normalize.  srcMask is received but never used
(model.py line 214 is commented out). -/
noncomputable def decoderL (hidden nH d ff : ℕ) (p : DecP) (x : Mat)
    (srcMask : List ℝ) (y : Mat) (tgMask : List ℝ) : Mat :=
  let om := outputMaskL y.length
  let s1 := mhaL hidden nH d p.attn1 y y y (some tgMask) (some om)
  let y1 := layerNormL p.g1 p.b1 (addL y s1)
  let s2 := crossAttnStage hidden nH d p.attn2 x y1
  let y2 := layerNormL p.g2 p.b2 (addL y1 s2)
  layerNormL p.g3 p.b3 (addL y2 (ffL hidden ff p.ff1 p.ff2 y2))

/-- EncoderStack.forward (model.py lines 238-245) for one batch element:
embed, then thread the activation through the encoder layers in order. -/
noncomputable def encoderStackL (hidden nH d ff maxLen : ℕ) (emb : ℕ → ℕ → ℝ)
    (layers : List EncP) (ids : List ℕ) (srcMask : List ℝ) : Mat :=
  layers.foldl (fun acc p => encoderL hidden nH d ff p acc srcMask)
    (embedL hidden maxLen emb ids)

/-- DecoderStack.forward (model.py lines 262-269) for one batch element:
embed the target ids, then thread the activation through the decoder layers
in order, each receiving the encoder output and both masks. -/
noncomputable def decoderStackL (hidden nH d ff maxLen : ℕ) (emb : ℕ → ℕ → ℝ)
    (layers : List DecP) (x : Mat) (srcMask : List ℝ) (ids : List ℕ)
    (tgMask : List ℝ) : Mat :=
  layers.foldl (fun acc p => decoderL hidden nH d ff p x srcMask acc tgMask)
    (embedL hidden maxLen emb ids)

/-- Transformer.pred_step (model.py lines 302-316) for one batch element:
run the encoder stack; run the decoder stack on the target ids with the last
token excluded (decoder_input_ids sliced by [:, :-1], and the target padding
mask sliced the same way); project to vocabulary logits.  The second
component is the label sequence handed to the loss: the target ids shifted
left by one (decoder_input_ids sliced by [:, 1:]). -/
noncomputable def predStepL (hidden nH d ff maxLen vocab : ℕ)
    (encEmb : ℕ → ℕ → ℝ) (encLayers : List EncP)
    (decEmb : ℕ → ℕ → ℝ) (decLayers : List DecP) (lin : LinParams)
    (inputIds decoderInputIds : List ℕ) (srcMask tgMask : List ℝ) :
    Mat × List ℕ :=
  let x := encoderStackL hidden nH d ff maxLen encEmb encLayers inputIds srcMask
  let y := decoderStackL hidden nH d ff maxLen decEmb decLayers x srcMask
    decoderInputIds.dropLast tgMask.dropLast
  (linearL vocab lin y, decoderInputIds.drop 1)

/-- pred_step over a whole batch: the per-example computation applied to
each (input ids, target ids, source mask, target mask) tuple. -/
noncomputable def predStepBatchL (hidden nH d ff maxLen vocab : ℕ)
    (encEmb : ℕ → ℕ → ℝ) (encLayers : List EncP)
    (decEmb : ℕ → ℕ → ℝ) (decLayers : List DecP) (lin : LinParams)
    (batch : List ((List ℕ) × (List ℕ) × (List ℝ) × (List ℝ))) :
    List (Mat × List ℕ) :=
  batch.map fun ex =>
    predStepL hidden nH d ff maxLen vocab encEmb encLayers decEmb decLayers lin
      ex.1 ex.2.1 ex.2.2.1 ex.2.2.2

/-- An all-zero linear layer, used as a concrete instantiation. -/
def zeroLin : LinParams :=
  ⟨fun _ _ => 0, fun _ => 0⟩

/-- A MultiHeadAttention parameter set with all projections zero. -/
def zeroMHAP : MHAP :=
  ⟨zeroLin, zeroLin, zeroLin, zeroLin⟩

/-! ### Helper lemmas -/

theorem getD_map_range {α : Type} (f : ℕ → α) {n i : ℕ} (d : α) (h : i < n) :
    ((List.range n).map f).getD i d = f i := by
  rw [List.getD_eq_getElem _ d (by simpa using h)]
  simp

theorem map_getD_range {α : Type} (l : List α) (d : α) :
    (List.range l.length).map (fun i => l.getD i d) = l := by
  apply List.ext_getElem
  · simp
  · intro i h1 h2
    simp [List.getD_eq_getElem l d h2, List.getElem?_eq_getElem h2]

theorem headD_map_range {α : Type} (f : ℕ → α) {n : ℕ} (d : α) (h : 0 < n) :
    ((List.range n).map f).headD d = f 0 := by
  obtain ⟨m, rfl⟩ := Nat.exists_eq_add_of_lt h
  rw [Nat.zero_add, List.range_succ_eq_map]
  rfl

theorem concatHeads_single (A : Mat) : concatHeadsL [A] = A := by
  unfold concatHeadsL
  simp only [List.headD, List.map_cons, List.map_nil, List.flatten_cons,
    List.flatten_nil, List.append_nil]
  exact map_getD_range A []

theorem length_linearL (o : ℕ) (p : LinParams) (x : Mat) :
    (linearL o p x).length = x.length := by
  simp [linearL]

theorem mem_linearL_length (o : ℕ) (p : LinParams) (x : Mat) :
    ∀ r ∈ linearL o p x, r.length = o := by
  intro r hr
  simp only [linearL, List.mem_map] at hr
  obtain ⟨row, _, rfl⟩ := hr
  simp

theorem length_maskedScoresL (Qm Km M : Mat) :
    (maskedScoresL Qm Km M).length = Qm.length := by
  simp [maskedScoresL]

theorem length_attnWeightsL (Qm Km M : Mat) :
    (attnWeightsL Qm Km M).length = Qm.length := by
  simp [attnWeightsL, length_maskedScoresL]

theorem length_sdpaHeadL (Qm Km Vm M : Mat) :
    (sdpaHeadL Qm Km Vm M).length = Qm.length := by
  simp [sdpaHeadL, length_attnWeightsL]

theorem length_headSlice (d h : ℕ) (m : Mat) :
    (headSlice d h m).length = m.length := by
  simp [headSlice]

theorem length_addL (A B : Mat) : (addL A B).length = min A.length B.length := by
  simp [addL]

theorem length_layerNormL (g b : ℕ → ℝ) (x : Mat) :
    (layerNormL g b x).length = x.length := by
  simp [layerNormL]

theorem length_reluL (x : Mat) : (reluL x).length = x.length := by
  simp [reluL]

theorem length_ffL (hidden ff : ℕ) (p1 p2 : LinParams) (x : Mat) :
    (ffL hidden ff p1 p2 x).length = x.length := by
  simp [ffL, length_linearL, length_reluL]

theorem length_mhaL (hidden nH d : ℕ) (p : MHAP) (Qx Kx Vx : Mat)
    (pm : Option (List ℝ)) (am : Option Mat) (hn : 0 < nH) :
    (mhaL hidden nH d p Qx Kx Vx pm am).length = Qx.length := by
  unfold mhaL concatHeadsL
  rw [length_linearL]
  simp only [List.length_map, List.length_range]
  rw [headD_map_range _ _ hn, length_sdpaHeadL, length_headSlice, length_linearL]

theorem headSlice_self (d : ℕ) (m : Mat) (h : ∀ r ∈ m, r.length = d) :
    headSlice d 0 m = m := by
  unfold headSlice
  have step : ∀ r ∈ m, (r.drop (0 * d)).take d = id r := by
    intro r hr
    rw [Nat.zero_mul, List.drop_zero, ← h r hr, List.take_length, id]
  rw [List.map_congr_left step, List.map_id]

theorem drop_cons_of_pos {d : ℕ} (hd : 0 < d) (x : ℝ) (xs : List ℝ) :
    (x :: xs).drop d = xs.drop (d - 1) := by
  obtain ⟨m, rfl⟩ := Nat.exists_eq_succ_of_ne_zero (Nat.pos_iff_ne_zero.mp hd)
  simp

theorem torchSplit_eq_chunks (d : ℕ) (hd : 0 < d) :
    ∀ (n : ℕ) (row : List ℝ), row.length = n * d →
      torchSplit d row = (List.range n).map fun h => (row.drop (h * d)).take d := by
  intro n
  induction n with
  | zero =>
    intro row hrow
    have hnil : row = [] := List.length_eq_zero.mp (by simpa using hrow)
    subst hnil
    rw [torchSplit]
    simp
  | succ m ih =>
    intro row hrow
    have hne : row ≠ [] := by
      intro h
      rw [h] at hrow
      simp at hrow
      omega
    obtain ⟨x, xs, rfl⟩ := List.exists_cons_of_ne_nil hne
    rw [torchSplit, ← drop_cons_of_pos hd]
    have hdrop : ((x :: xs).drop d).length = m * d := by
      rw [List.length_drop, hrow]
      rw [Nat.succ_mul]
      omega
    rw [ih ((x :: xs).drop d) hdrop, List.range_succ_eq_map, List.map_cons,
      List.map_map]
    congr 1
    · rw [Nat.zero_mul, List.drop_zero]
    · apply List.map_congr_left
      intro h _
      simp only [Function.comp_apply, List.drop_drop]
      congr 2
      rw [Nat.succ_mul]
      omega

theorem chunks_flatten (d : ℕ) :
    ∀ (n : ℕ) (row : List ℝ), row.length = n * d →
      ((List.range n).map fun h => (row.drop (h * d)).take d).flatten = row := by
  intro n
  induction n with
  | zero =>
    intro row hrow
    have hnil : row = [] := List.length_eq_zero.mp (by simpa using hrow)
    subst hnil
    rfl
  | succ m ih =>
    intro row hrow
    rw [List.range_succ_eq_map, List.map_cons, List.map_map, List.flatten_cons]
    have hdrop : (row.drop d).length = m * d := by
      rw [List.length_drop, hrow, Nat.succ_mul]
      omega
    have hrest : (List.map ((fun h => (row.drop (h * d)).take d) ∘ Nat.succ)
        (List.range m)).flatten = row.drop d := by
      have : List.map ((fun h => (row.drop (h * d)).take d) ∘ Nat.succ) (List.range m)
          = List.map (fun h => ((row.drop d).drop (h * d)).take d) (List.range m) := by
        apply List.map_congr_left
        intro h _
        simp only [Function.comp_apply, List.drop_drop]
        congr 2
        rw [Nat.succ_mul]
        omega
      rw [this, ih (row.drop d) hdrop]
    rw [hrest, Nat.zero_mul, List.drop_zero, List.take_append_drop]

theorem chunk_length_of_lt (d n h : ℕ) (row : List ℝ) (hlen : row.length = n * d)
    (hh : h < n) : ((row.drop (h * d)).take d).length = d := by
  rw [List.length_take, List.length_drop, hlen]
  have : h * d + d ≤ n * d := by
    calc h * d + d = (h + 1) * d := by ring
    _ ≤ n * d := Nat.mul_le_mul_right d hh
  omega

theorem torchStack_cons_of_all (c : List ℝ) (cs : List (List ℝ))
    (h : ∀ x ∈ cs, x.length = c.length) : torchStack (c :: cs) = some (c :: cs) := by
  simp only [torchStack]
  rw [if_pos]
  apply List.all_eq_true.mpr
  intro x hx
  simpa using h x hx

/-! ### Claim theorems -/

/-- C6: MultiHeadAttention.forward configured with n_head = 1 (and therefore
d_head = hidden_size) produces exactly the same output as applying the q/k/v
projections, running ScaledDotProductAttention directly on the unsplit
projected tensors, and applying the output projection, for every input and
every choice of masks.  In the exact real-number semantics the two sides are
identical, which subsumes agreement within floating tolerance. -/
theorem mha_single_head_eq_spec (hidden : ℕ) (p : MHAP) (Qx Kx Vx : Mat)
    (pm : Option (List ℝ)) (am : Option Mat) :
    mhaL hidden 1 hidden p Qx Kx Vx pm am
      = specSingleHeadMHA hidden p Qx Kx Vx pm am := by
  unfold mhaL specSingleHeadMHA
  have hr1 : List.range 1 = [0] := rfl
  simp only [hr1, List.map_cons, List.map_nil]
  rw [concatHeads_single,
    headSlice_self hidden _ (mem_linearL_length hidden p.q Qx),
    headSlice_self hidden _ (mem_linearL_length hidden p.k Kx),
    headSlice_self hidden _ (mem_linearL_length hidden p.v Vx)]

/-- C4: the causal mask of Decoder.forward, built fresh from the target
length L as torch.tril of an all-ones L x L tensor, is square of side L,
entry (i, j) is valid (nonzero) exactly when j is at most i, and row i has
exactly i + 1 valid columns, namely columns 0 through i. -/
theorem causal_mask_spec (L i : ℕ) (hi : i < L) :
    (outputMaskL L).length = L ∧
    (∀ r ∈ outputMaskL L, r.length = L) ∧
    (∀ j, j < L → (((outputMaskL L).getD i []).getD j 0 ≠ 0 ↔ j ≤ i)) ∧
    ((Finset.range L).filter (fun j => j ≤ i)).card = i + 1 := by
  have hlen : (outputMaskL L).length = L := by
    simp [outputMaskL, trilL, onesL]
  refine ⟨hlen, ?_, ?_, ?_⟩
  · intro r hr
    obtain ⟨i2, hi2, rfl⟩ := List.mem_iff_getElem.mp hr
    simp only [outputMaskL, trilL, onesL] at hi2 ⊢
    rw [List.getElem_map, List.getElem_enum, List.getElem_replicate]
    simp
  · intro j hj
    have hrow : (outputMaskL L).getD i [] =
        (List.replicate L (1 : ℝ)).enum.map fun jc => if jc.1 ≤ i then jc.2 else 0 := by
      rw [List.getD_eq_getElem _ [] (by simpa [hlen] using hi)]
      simp only [outputMaskL, trilL, onesL]
      rw [List.getElem_map, List.getElem_enum, List.getElem_replicate]
    have hentry : ((outputMaskL L).getD i []).getD j 0 = if j ≤ i then (1 : ℝ) else 0 := by
      rw [hrow, List.getD_eq_getElem _ 0 (by simpa using hj)]
      rw [List.getElem_map, List.getElem_enum, List.getElem_replicate]
    rw [hentry]
    by_cases hji : j ≤ i <;> simp [hji]
  · have : (Finset.range L).filter (fun j => j ≤ i) = Finset.range (i + 1) := by
      ext a
      simp only [Finset.mem_filter, Finset.mem_range]
      omega
    rw [this, Finset.card_range]

/-- Witness for causal_mask_spec at L = 3, i = 1. -/
theorem causal_mask_spec_witness :
    1 < 3 ∧
    ((outputMaskL 3).length = 3 ∧
     (∀ r ∈ outputMaskL 3, r.length = 3) ∧
     (∀ j, j < 3 → (((outputMaskL 3).getD 1 []).getD j 0 ≠ 0 ↔ j ≤ 1)) ∧
     ((Finset.range 3).filter (fun j => j ≤ 1)).card = 1 + 1) :=
  ⟨by decide, causal_mask_spec 3 1 (by decide)⟩

/-- C8: the positional-encoding table built from max_len and hidden_size has
entry (pos, 2i) equal to sin(pos / 10000^(2i/hidden_size)) and entry
(pos, 2i + 1) equal to cos(pos / 10000^(2i/hidden_size)); it is a pure
function of (max_len, hidden_size), so two constructions from identical
parameters produce identical tables; and row 0 alternates sin 0 = 0 and
cos 0 = 1 across features. -/
theorem positional_encoding_spec (maxLen hidden pos i : ℕ)
    (hpos : pos < maxLen) (hi : 2 * i + 1 < hidden) :
    ((posTableL maxLen hidden).getD pos []).getD (2 * i) 0
        = Real.sin ((pos : ℝ) / (10000 : ℝ) ^ ((2 * (i : ℝ)) / (hidden : ℝ))) ∧
    ((posTableL maxLen hidden).getD pos []).getD (2 * i + 1) 0
        = Real.cos ((pos : ℝ) / (10000 : ℝ) ^ ((2 * (i : ℝ)) / (hidden : ℝ))) ∧
    (∀ m2 h2, maxLen = m2 → hidden = h2 → posTableL maxLen hidden = posTableL m2 h2) ∧
    ((posTableL maxLen hidden).getD 0 []).getD (2 * i) 0 = 0 ∧
    ((posTableL maxLen hidden).getD 0 []).getD (2 * i + 1) 0 = 1 := by
  have hrow : ∀ q, q < maxLen → (posTableL maxLen hidden).getD q []
      = (List.range hidden).map fun j => positionalEncoding hidden q j := by
    intro q hq
    exact getD_map_range _ [] hq
  have heven : ∀ q, q < maxLen → ((posTableL maxLen hidden).getD q []).getD (2 * i) 0
      = Real.sin ((q : ℝ) / (10000 : ℝ) ^ ((2 * (i : ℝ)) / (hidden : ℝ))) := by
    intro q hq
    rw [hrow q hq, getD_map_range _ 0 (by omega)]
    unfold positionalEncoding
    rw [if_pos (by omega)]
    push_cast
    ring_nf
  have hodd : ∀ q, q < maxLen → ((posTableL maxLen hidden).getD q []).getD (2 * i + 1) 0
      = Real.cos ((q : ℝ) / (10000 : ℝ) ^ ((2 * (i : ℝ)) / (hidden : ℝ))) := by
    intro q hq
    rw [hrow q hq, getD_map_range _ 0 hi]
    unfold positionalEncoding
    rw [if_neg (by omega)]
    push_cast
    ring_nf
  have hm0 : 0 < maxLen := by omega
  refine ⟨heven pos hpos, hodd pos hpos, ?_, ?_, ?_⟩
  · intro m2 h2 e1 e2
    rw [e1, e2]
  · rw [heven 0 hm0]
    simp
  · rw [hodd 0 hm0]
    simp

/-- Witness for positional_encoding_spec at max_len = 2, hidden = 2,
pos = 1, i = 0. -/
theorem positional_encoding_spec_witness :
    1 < 2 ∧ 2 * 0 + 1 < 2 ∧
    (((posTableL 2 2).getD 1 []).getD (2 * 0) 0
        = Real.sin (((1 : ℕ) : ℝ) / (10000 : ℝ) ^ ((2 * ((0 : ℕ) : ℝ)) / ((2 : ℕ) : ℝ))) ∧
     ((posTableL 2 2).getD 1 []).getD (2 * 0 + 1) 0
        = Real.cos (((1 : ℕ) : ℝ) / (10000 : ℝ) ^ ((2 * ((0 : ℕ) : ℝ)) / ((2 : ℕ) : ℝ))) ∧
     (∀ m2 h2, 2 = m2 → 2 = h2 → posTableL 2 2 = posTableL m2 h2) ∧
     ((posTableL 2 2).getD 0 []).getD (2 * 0) 0 = 0 ∧
     ((posTableL 2 2).getD 0 []).getD (2 * 0 + 1) 0 = 1) :=
  ⟨by decide, by decide, positional_encoding_spec 2 2 1 0 (by decide) (by decide)⟩

/-- C5: for every projected tensor whose feature rows have length
n_head * d_head, mh_convert is an exact order-preserving partition of the
feature axis — torch.split produces exactly the chunks at feature indices
h*d_head up to (h+1)*d_head, torch.stack accepts them — and the concat step
used after attention reassembles the chunks in the same order, so splitting
into heads and immediately recombining reproduces the original tensor. -/
theorem head_split_concat_roundtrip (d nH : ℕ) (m : Mat)
    (hd : 0 < d) (hn : 0 < nH) (hm : ∀ r ∈ m, r.length = nH * d) :
    (∀ r ∈ m, torchSplit d r = (List.range nH).map fun h => (r.drop (h * d)).take d) ∧
    (∀ r ∈ m, mhConvertRow d r = some (torchSplit d r)) ∧
    (∀ h, h < nH → (headsOf d nH m).getD h [] = m.map fun r => (r.drop (h * d)).take d) ∧
    concatHeadsL (headsOf d nH m) = m := by
  have hsplit : ∀ r ∈ m, torchSplit d r
      = (List.range nH).map fun h => (r.drop (h * d)).take d :=
    fun r hr => torchSplit_eq_chunks d hd nH r (hm r hr)
  refine ⟨hsplit, ?_, ?_, ?_⟩
  · intro r hr
    rw [mhConvertRow, hsplit r hr]
    obtain ⟨nm, rfl⟩ := Nat.exists_eq_succ_of_ne_zero (Nat.pos_iff_ne_zero.mp hn)
    rw [List.range_succ_eq_map, List.map_cons]
    apply torchStack_cons_of_all
    intro c hc
    simp only [List.map_map, List.mem_map, List.mem_range] at hc
    obtain ⟨h, hh, rfl⟩ := hc
    have h1 : (((r.drop (Nat.succ h * d)).take d)).length = d :=
      chunk_length_of_lt d (nm + 1) (Nat.succ h) r (hm r hr) (by omega)
    have h0 : ((r.drop (0 * d)).take d).length = d :=
      chunk_length_of_lt d (nm + 1) 0 r (hm r hr) (by omega)
    simp only [Function.comp_apply]
    rw [h1, h0]
  · intro h hh
    unfold headsOf
    rw [getD_map_range _ [] hh]
    rfl
  · unfold concatHeadsL
    have hhead : (headsOf d nH m).headD [] = headSlice d 0 m := by
      unfold headsOf
      exact headD_map_range _ [] hn
    rw [hhead, length_headSlice]
    have hper : ∀ s ∈ List.range m.length,
        ((headsOf d nH m).map fun A => A.getD s []).flatten = m.getD s [] := by
      intro s hs
      have hs2 : s < m.length := List.mem_range.mp hs
      have hmem : m.getD s [] ∈ m := by
        rw [List.getD_eq_getElem _ [] hs2]
        exact List.getElem_mem hs2
      have hrowlen : (m.getD s []).length = nH * d := hm _ hmem
      unfold headsOf
      rw [List.map_map]
      have : List.map ((fun A => A.getD s []) ∘ fun h => headSlice d h m) (List.range nH)
          = List.map (fun h => ((m.getD s []).drop (h * d)).take d) (List.range nH) := by
        apply List.map_congr_left
        intro h _
        simp only [Function.comp_apply, headSlice]
        rw [List.getD_eq_getElem _ [] (by simpa using hs2), List.getElem_map,
          List.getD_eq_getElem _ [] hs2]
      rw [this]
      exact chunks_flatten d nH (m.getD s []) hrowlen
    calc (List.range m.length).map (fun s => ((headsOf d nH m).map fun A => A.getD s []).flatten)
        = (List.range m.length).map (fun s => m.getD s []) := List.map_congr_left hper
      _ = m := map_getD_range m []

/-- Witness for head_split_concat_roundtrip at d_head = 2, n_head = 2, on a
single-position tensor with four features. -/
theorem head_split_concat_roundtrip_witness :
    0 < 2 ∧ (∀ r ∈ ([[1, 2, 3, 4]] : Mat), r.length = 2 * 2) ∧
    ((∀ r ∈ ([[1, 2, 3, 4]] : Mat),
        torchSplit 2 r = (List.range 2).map fun h => (r.drop (h * 2)).take 2) ∧
     (∀ r ∈ ([[1, 2, 3, 4]] : Mat), mhConvertRow 2 r = some (torchSplit 2 r)) ∧
     (∀ h, h < 2 → (headsOf 2 2 [[1, 2, 3, 4]]).getD h []
        = ([[1, 2, 3, 4]] : Mat).map fun r => (r.drop (h * 2)).take 2) ∧
     concatHeadsL (headsOf 2 2 [[1, 2, 3, 4]]) = [[1, 2, 3, 4]]) :=
  ⟨by decide, by intro r hr; simp only [List.mem_singleton] at hr; simp [hr],
   head_split_concat_roundtrip 2 2 [[1, 2, 3, 4]] (by decide) (by decide)
     (by intro r hr; simp only [List.mem_singleton] at hr; simp [hr])⟩

/-- C7 counterexample: hidden_size = 6 is not divisible by n_head = 4, yet
with d_head = 2 neither construction nor the first forward call fails:
mh_convert's split-and-stack on a six-feature row succeeds, silently
producing three equal head chunks instead of the configured four
(MultiHeadAttention.__init__, model.py lines 104-109, stores the three sizes
without any validation). -/
theorem mh_convert_no_divisibility_check :
    ¬ (4 ∣ 6) ∧
    mhConvertRow 2 [0, 1, 2, 3, 4, 5] = some [[0, 1], [2, 3], [4, 5]] ∧
    (torchSplit 2 [0, 1, 2, 3, 4, 5]).length = 3 ∧ (3 : ℕ) ≠ 4 := by
  refine ⟨by decide, ?_, ?_, by decide⟩
  · norm_num [mhConvertRow, torchStack, torchSplit]
  · norm_num [torchSplit]

/-- C7 (amended): MultiHeadAttention performs no divisibility validation at
construction or on the first forward call.  Whenever d_head divides the
feature length, mh_convert's split-and-stack succeeds and silently proceeds
with length / d_head equal chunks, a head count that need not equal n_head;
only a ragged final chunk (d_head not dividing a longer feature row, as in
the closed conjunct with three features and d_head = 2) makes torch.stack
reject the chunks, and that is a generic shape error, not a descriptive
configuration error. -/
theorem mh_convert_silent_behaviour (d n : ℕ) (row : List ℝ)
    (hd : 0 < d) (hn : 0 < n) (hlen : row.length = n * d) :
    mhConvertRow d row = some ((List.range n).map fun h => (row.drop (h * d)).take d) ∧
    (torchSplit d row).length = n ∧
    mhConvertRow 2 [0, 1, 2] = none := by
  have hsplit := torchSplit_eq_chunks d hd n row hlen
  refine ⟨?_, by rw [hsplit]; simp, by norm_num [mhConvertRow, torchStack, torchSplit]⟩
  rw [mhConvertRow, hsplit]
  obtain ⟨nm, rfl⟩ := Nat.exists_eq_succ_of_ne_zero (Nat.pos_iff_ne_zero.mp hn)
  rw [List.range_succ_eq_map, List.map_cons]
  apply torchStack_cons_of_all
  intro c hc
  simp only [List.map_map, List.mem_map, List.mem_range] at hc
  obtain ⟨h, hh, rfl⟩ := hc
  have h1 : ((row.drop (Nat.succ h * d)).take d).length = d :=
    chunk_length_of_lt d (nm + 1) (Nat.succ h) row hlen (by omega)
  have h0 : ((row.drop (0 * d)).take d).length = d :=
    chunk_length_of_lt d (nm + 1) 0 row hlen (by omega)
  simp only [Function.comp_apply]
  rw [h1, h0]

/-- Witness for mh_convert_silent_behaviour at d_head = 2 on six features
(the n_head = 4 configuration of the counterexample: three chunks result). -/
theorem mh_convert_silent_behaviour_witness :
    0 < 2 ∧ 0 < 3 ∧ ([(0 : ℝ), 1, 2, 3, 4, 5].length = 3 * 2) ∧
    (mhConvertRow 2 [0, 1, 2, 3, 4, 5]
        = some ((List.range 3).map fun h => (([(0 : ℝ), 1, 2, 3, 4, 5]).drop (h * 2)).take 2) ∧
     (torchSplit 2 [0, 1, 2, 3, 4, 5]).length = 3 ∧
     mhConvertRow 2 [0, 1, 2] = none) :=
  ⟨by decide, by decide, by simp,
   mh_convert_silent_behaviour 2 3 [0, 1, 2, 3, 4, 5] (by decide) (by decide) (by simp)⟩

theorem onesL_entry (q k i j : ℕ) (hi : i < q) (hj : j < k) :
    ((onesL q k).getD i []).getD j 0 = 1 := by
  unfold onesL
  rw [List.getD_eq_getElem _ [] (by simpa using hi), List.getElem_replicate,
    List.getD_eq_getElem _ 0 (by simpa using hj), List.getElem_replicate]

theorem outerL_entry (v : List ℝ) (i j : ℕ) (hi : i < v.length) (hj : j < v.length) :
    ((outerL v).getD i []).getD j 0 = v.getD i 0 * v.getD j 0 := by
  unfold outerL
  rw [List.getD_eq_getElem _ [] (by simpa using hi), List.getElem_map,
    List.getD_eq_getElem _ 0 (by simpa using hj), List.getElem_map,
    List.getD_eq_getElem v 0 hi, List.getD_eq_getElem v 0 hj]

theorem length_row_onesL (q k i : ℕ) (hi : i < q) :
    ((onesL q k).getD i []).length = k := by
  unfold onesL
  rw [List.getD_eq_getElem _ [] (by simpa using hi), List.getElem_replicate]
  simp

theorem length_row_outerL (v : List ℝ) (i : ℕ) (hi : i < v.length) :
    ((outerL v).getD i []).length = v.length := by
  unfold outerL
  rw [List.getD_eq_getElem _ [] (by simpa using hi), List.getElem_map]
  simp

theorem hadamard_entry (A B : Mat) (i j : ℕ)
    (hiA : i < A.length) (hiB : i < B.length)
    (hjA : j < (A.getD i []).length) (hjB : j < (B.getD i []).length) :
    ((hadamardL A B).getD i []).getD j 0
      = ((A.getD i []).getD j 0) * ((B.getD i []).getD j 0) := by
  have hi2 : i < (hadamardL A B).length := by
    unfold hadamardL
    rw [List.length_zipWith]
    omega
  rw [List.getD_eq_getElem _ [] hi2]
  unfold hadamardL
  rw [List.getElem_zipWith]
  rw [List.getD_eq_getElem A [] hiA] at hjA ⊢
  rw [List.getD_eq_getElem B [] hiB] at hjB ⊢
  have hj2 : j < (List.zipWith (· * ·) A[i] B[i]).length := by
    rw [List.length_zipWith]
    omega
  rw [List.getD_eq_getElem _ 0 hj2, List.getElem_zipWith,
    List.getD_eq_getElem _ 0 hjA, List.getD_eq_getElem _ 0 hjB]

theorem length_row_hadamard (A B : Mat) (i : ℕ)
    (hiA : i < A.length) (hiB : i < B.length) :
    ((hadamardL A B).getD i []).length
      = min ((A.getD i []).length) ((B.getD i []).length) := by
  have hi2 : i < (hadamardL A B).length := by
    unfold hadamardL
    rw [List.length_zipWith]
    omega
  rw [List.getD_eq_getElem _ [] hi2]
  unfold hadamardL
  rw [List.getElem_zipWith, List.length_zipWith,
    List.getD_eq_getElem A [] hiA, List.getD_eq_getElem B [] hiB]

theorem maskedScores_entry (Qm Km M : Mat) (i j : ℕ)
    (hi : i < Qm.length) (hj : j < Km.length) :
    ((maskedScoresL Qm Km M).getD i []).getD j 0
      = if (M.getD i []).getD j 0 ≠ 0
        then dotL (Qm.getD i []) (Km.getD j []) / Real.sqrt ((Km.headD []).length)
        else negFill := by
  unfold maskedScoresL
  rw [List.getD_eq_getElem _ [] (by simpa using hi), List.getElem_map,
    List.getElem_enum, List.getD_eq_getElem _ 0 (by simpa using hj),
    List.getElem_map, List.getElem_enum,
    List.getD_eq_getElem Qm [] hi, List.getD_eq_getElem Km [] hj]

/-- C2: the combined mask of ScaledDotProductAttention.forward starts from an
all-ones (q_len, k_len) tensor; with a padding mask it is multiplied
elementwise by the outer product of the padding mask with itself, so entry
(i, j) is the product pm i * pm j, nonzero only if both query position i and
key position j are non-pad; with an attention mask it is further multiplied
elementwise by it; and the resulting entry (i, j) decides, identically for
every head, whether the raw score at (i, j) survives or is replaced. -/
theorem combined_mask_spec (q k i j : ℕ) (hi : i < q) (hj : j < k) :
    (((buildMaskL q k none none).getD i []).getD j 0 = 1) ∧
    (∀ v : List ℝ, v.length = q → k = q →
      ((buildMaskL q k (some v) none).getD i []).getD j 0 = v.getD i 0 * v.getD j 0) ∧
    (∀ A : Mat, A.length = q → (∀ r ∈ A, r.length = k) →
      ((buildMaskL q k none (some A)).getD i []).getD j 0 = (A.getD i []).getD j 0) ∧
    (∀ (v : List ℝ) (A : Mat), v.length = q → k = q → A.length = q →
      (∀ r ∈ A, r.length = k) →
      ((buildMaskL q k (some v) (some A)).getD i []).getD j 0
        = v.getD i 0 * v.getD j 0 * ((A.getD i []).getD j 0)) ∧
    (∀ v : List ℝ, v.length = q → k = q →
      ((buildMaskL q k (some v) none).getD i []).getD j 0 ≠ 0 →
      v.getD i 0 ≠ 0 ∧ v.getD j 0 ≠ 0) ∧
    (∀ Qm Km M : Mat, i < Qm.length → j < Km.length →
      ((maskedScoresL Qm Km M).getD i []).getD j 0
        = if (M.getD i []).getD j 0 ≠ 0
          then dotL (Qm.getD i []) (Km.getD j []) / Real.sqrt ((Km.headD []).length)
          else negFill) := by
  have hrowA : ∀ A : Mat, A.length = q → (∀ r ∈ A, r.length = k) →
      (A.getD i []).length = k := by
    intro A hA hrows
    apply hrows
    rw [List.getD_eq_getElem A [] (by omega)]
    exact List.getElem_mem (by omega)
  have hpadcase : ∀ v : List ℝ, v.length = q → k = q →
      ((buildMaskL q k (some v) none).getD i []).getD j 0
        = v.getD i 0 * v.getD j 0 := by
    intro v hv hkq
    show ((hadamardL (onesL q k) (outerL v)).getD i []).getD j 0 = _
    rw [hadamard_entry (onesL q k) (outerL v) i j (by simp [onesL]; omega)
      (by simp [outerL]; omega) (by rw [length_row_onesL q k i hi]; omega)
      (by rw [length_row_outerL v i (by omega)]; omega)]
    rw [onesL_entry q k i j hi hj, outerL_entry v i j (by omega) (by omega), one_mul]
  refine ⟨?_, hpadcase, ?_, ?_, ?_, ?_⟩
  · exact onesL_entry q k i j hi hj
  · intro A hA hrows
    show ((hadamardL (onesL q k) A).getD i []).getD j 0 = _
    rw [hadamard_entry (onesL q k) A i j (by simp [onesL]; omega) (by omega)
      (by rw [length_row_onesL q k i hi]; omega) (by rw [hrowA A hA hrows]; omega)]
    rw [onesL_entry q k i j hi hj, one_mul]
  · intro v A hv hkq hA hrows
    show ((hadamardL (hadamardL (onesL q k) (outerL v)) A).getD i []).getD j 0 = _
    have hlen1 : i < (hadamardL (onesL q k) (outerL v)).length := by
      unfold hadamardL
      rw [List.length_zipWith]
      simp [onesL, outerL]
      omega
    rw [hadamard_entry _ A i j (by unfold hadamardL at hlen1 ⊢; omega) (by omega)
      (by rw [length_row_hadamard _ _ i (by simp [onesL]; omega) (by simp [outerL]; omega),
            length_row_onesL q k i hi, length_row_outerL v i (by omega)]
          omega)
      (by rw [hrowA A hA hrows]; omega)]
    have := hpadcase v hv hkq
    unfold buildMaskL at this
    simp only at this
    rw [this]
  · intro v hv hkq hne
    rw [hpadcase v hv hkq] at hne
    exact mul_ne_zero_iff.mp hne
  · intro Qm Km M hiQ hjK
    exact maskedScores_entry Qm Km M i j hiQ hjK

/-- Witness for combined_mask_spec at q = k = 2, i = 0, j = 1, further
instantiating the padding-mask conjunct at the concrete mask [1, 0]. -/
theorem combined_mask_spec_witness :
    0 < 2 ∧ 1 < 2 ∧
    ((buildMaskL 2 2 (some [1, 0]) none).getD 0 []).getD 1 0
      = ([(1 : ℝ), 0]).getD 0 0 * ([(1 : ℝ), 0]).getD 1 0 :=
  ⟨by decide, by decide,
   ((combined_mask_spec 2 2 0 1 (by decide) (by decide)).2.1) [1, 0] (by simp) rfl⟩

theorem maskedScores_ones (Qm Km : Mat) (q k : ℕ)
    (hq : Qm.length ≤ q) (hk : Km.length ≤ k) :
    maskedScoresL Qm Km (onesL q k)
      = Qm.map fun qrow => Km.map fun krow =>
          dotL qrow krow / Real.sqrt ((Km.headD []).length) := by
  apply List.ext_getElem
  · simp [maskedScoresL]
  · intro i h1 h2
    simp only [maskedScoresL, List.getElem_map, List.getElem_enum]
    have hiQ : i < Qm.length := by simpa using h2
    apply List.ext_getElem
    · simp
    · intro j g1 g2
      simp only [List.getElem_map, List.getElem_enum]
      rw [if_pos]
      rw [onesL_entry q k i j (by omega)
        (by have hj2 : j < Km.length := by simpa using g2
            omega)]
      exact one_ne_zero

theorem attnWeights_ones (Qm Km : Mat) (q k : ℕ)
    (hq : Qm.length ≤ q) (hk : Km.length ≤ k) :
    attnWeightsL Qm Km (onesL q k)
      = Qm.map fun qrow => softmaxL (Km.map fun krow =>
          dotL qrow krow / Real.sqrt ((Km.headD []).length)) := by
  unfold attnWeightsL
  rw [maskedScores_ones Qm Km q k hq hk, List.map_map]
  rfl

/-- C10: when ScaledDotProductAttention.forward is called with pad_mask =
None and attn_mask = None, as the decoder's cross-attention stage does, the
combined mask is the all-ones tensor, no score is replaced, and the output is
exactly softmax of the scaled score matrix times V, with the scale the square
root of the last dimension of K. -/
theorem sdpa_no_mask_spec (Qm Km Vm : Mat) :
    buildMaskL Qm.length Km.length none none = onesL Qm.length Km.length ∧
    maskedScoresL Qm Km (buildMaskL Qm.length Km.length none none)
      = (Qm.map fun qrow => Km.map fun krow =>
          dotL qrow krow / Real.sqrt ((Km.headD []).length)) ∧
    sdpaHeadL Qm Km Vm (buildMaskL Qm.length Km.length none none)
      = Qm.map fun qrow =>
          vAggrL (softmaxL (Km.map fun krow =>
            dotL qrow krow / Real.sqrt ((Km.headD []).length))) Vm := by
  refine ⟨rfl, ?_, ?_⟩
  · exact maskedScores_ones Qm Km Qm.length Km.length le_rfl le_rfl
  · show (attnWeightsL Qm Km (buildMaskL Qm.length Km.length none none)).map
      (fun w => vAggrL w Vm) = _
    have : buildMaskL Qm.length Km.length none none = onesL Qm.length Km.length := rfl
    rw [this, attnWeights_ones Qm Km Qm.length Km.length le_rfl le_rfl, List.map_map]
    rfl

/-- The cross-attention call of Decoder.forward decomposed: its output is the
output projection of the concatenation over heads of the per-head weights
(crossAttnHeadWeights, computed against the mask built from pad_mask = None
and attn_mask = None) aggregated against the projected values. -/
theorem crossAttnStage_decomposition (hidden nH d : ℕ) (p : MHAP) (x y : Mat) :
    crossAttnStage hidden nH d p x y
      = linearL hidden p.o (concatHeadsL ((List.range nH).map fun h =>
          (crossAttnHeadWeights hidden d h p x y).map fun w =>
            vAggrL w (headSlice d h (linearL hidden p.v x)))) := rfl

/-- C3 (amended): the decoder cross-attention stage passes no padding mask at
all — pad_mask and attn_mask are left at None (the variant with pad_mask =
src_mask is commented out in the source), so for every input the combined
mask is all ones and the per-head attention weights are the plain softmax of
the raw scaled scores; the source padding mask never enters the computation,
and decoder query positions can attend into encoder pad positions. -/
theorem cross_attention_no_src_mask (hidden d h : ℕ) (p : MHAP) (x y : Mat) :
    crossAttnHeadWeights hidden d h p x y
      = (headSlice d h (linearL hidden p.q y)).map fun qrow =>
          softmaxL ((headSlice d h (linearL hidden p.k x)).map fun krow =>
            dotL qrow krow
              / Real.sqrt (((headSlice d h (linearL hidden p.k x)).headD []).length)) := by
  unfold crossAttnHeadWeights
  have hmask : buildMaskL (linearL hidden p.q y).length (linearL hidden p.k x).length
      none none = onesL (linearL hidden p.q y).length (linearL hidden p.k x).length := rfl
  rw [hmask]
  exact attnWeights_ones _ _ _ _ (by rw [length_headSlice]) (by rw [length_headSlice])

/-- C3 counterexample: with the source padding mask [1, 0] marking encoder
position 1 as pad, a one-feature, one-head decoder cross-attention stage with
zero projections assigns post-softmax weight 1/2 — not a value within a small
epsilon of zero — to the pad key position 1: the claim that the encoder-side
padding mask is applied in the cross-attention call fails, because the call
passes no padding mask. -/
theorem cross_attention_attends_to_pad :
    (([1, 0] : List ℝ)).getD 1 0 = 0 ∧
    crossAttnHeadWeights 1 1 0 zeroMHAP [[0], [1]] [[0]] = [[1/2, 1/2]] ∧
    ¬ ((1 : ℝ)/2 < 1/4) := by
  refine ⟨by norm_num, ?_, by norm_num⟩
  norm_num [crossAttnHeadWeights, zeroMHAP, zeroLin, linearL, headSlice,
    attnWeightsL, maskedScoresL, buildMaskL, onesL, outerL, hadamardL,
    softmaxL, dotL, List.enum, List.enumFrom, Real.sqrt_one, Real.exp_zero]

/-- C1 (code behavior at the failing input): with padding mask [1, 0] the
combined mask marks key position 1 invalid and ScaledDotProductAttention
replaces its score with -1e-9; because that fill is minuscule rather than a
very large negative value, on all-zero scores the post-softmax weight of the
masked key position exceeds 1/4 instead of being within a small epsilon of
zero, even though query position 0 has a valid key position. -/
theorem masked_weight_not_negligible :
    ((buildMaskL 1 2 (some [1, 0]) none).getD 0 []).getD 1 0 = 0 ∧
    ((attnWeightsL [[0]] [[0], [0]] (buildMaskL 1 2 (some [1, 0]) none)).getD 0 []).getD 1 0
      > 1/4 := by
  have hM : buildMaskL 1 2 (some [1, 0]) none = [[(1 : ℝ), 0]] := by
    norm_num [buildMaskL, onesL, outerL, hadamardL, List.replicate]
  have hS : maskedScoresL [[0]] [[(0 : ℝ)], [0]] [[(1 : ℝ), 0]] = [[0, negFill]] := by
    norm_num [maskedScoresL, dotL, List.enum, List.enumFrom, Real.sqrt_one]
  refine ⟨by rw [hM]; norm_num, ?_⟩
  rw [hM]
  have hW : attnWeightsL [[0]] [[0], [0]] [[(1 : ℝ), 0]] = [softmaxL [0, negFill]] := by
    unfold attnWeightsL
    rw [hS]
    rfl
  rw [hW]
  show (softmaxL [0, negFill]).getD 1 0 > 1/4
  unfold softmaxL
  have hval : (([(0 : ℝ), negFill]).map fun a =>
      Real.exp a / (([(0 : ℝ), negFill]).map Real.exp).sum).getD 1 0
      = Real.exp negFill / (1 + (Real.exp negFill + 0)) := by
    norm_num [Real.exp_zero]
  rw [hval]
  have hpos : (0 : ℝ) < Real.exp negFill := Real.exp_pos _
  have hlow : 1 + negFill ≤ Real.exp negFill := by
    have := Real.add_one_le_exp negFill
    linarith
  have hnf : negFill = -1e-9 := rfl
  rw [gt_iff_lt, lt_div_iff₀ (by linarith)]
  have hlow2 : (1 : ℝ) - 1 / 1000000000 ≤ Real.exp negFill := by
    have h2 : negFill + 1 = 1 - 1 / 1000000000 := by
      rw [hnf]
      norm_num
    linarith
  linarith

theorem length_decoderL (hidden nH d ff : ℕ) (p : DecP) (x : Mat)
    (srcMask : List ℝ) (y : Mat) (tgMask : List ℝ) (hn : 0 < nH) :
    (decoderL hidden nH d ff p x srcMask y tgMask).length = y.length := by
  unfold decoderL crossAttnStage
  simp only [length_layerNormL, length_addL, length_ffL,
    length_mhaL _ _ _ _ _ _ _ _ _ hn]
  omega

theorem length_embedL (hidden maxLen : ℕ) (emb : ℕ → ℕ → ℝ) (ids : List ℕ)
    (h : ids.length ≤ maxLen) :
    (embedL hidden maxLen emb ids).length = ids.length := by
  unfold embedL posTableL
  rw [length_addL]
  simp only [List.length_map, List.length_take, List.length_range]
  omega

theorem length_decoder_foldl (hidden nH d ff : ℕ) (layers : List DecP)
    (x : Mat) (srcMask tgMask : List ℝ) (hn : 0 < nH) :
    ∀ y : Mat,
      (layers.foldl (fun acc p => decoderL hidden nH d ff p x srcMask acc tgMask) y).length
        = y.length := by
  induction layers with
  | nil => intro y; rfl
  | cons p ps ih =>
    intro y
    rw [List.foldl_cons, ih, length_decoderL _ _ _ _ _ _ _ _ _ hn]

theorem length_decoderStackL (hidden nH d ff maxLen : ℕ) (emb : ℕ → ℕ → ℝ)
    (layers : List DecP) (x : Mat) (srcMask : List ℝ) (ids : List ℕ)
    (tgMask : List ℝ) (hn : 0 < nH) (hm : ids.length ≤ maxLen) :
    (decoderStackL hidden nH d ff maxLen emb layers x srcMask ids tgMask).length
      = ids.length := by
  unfold decoderStackL
  rw [length_decoder_foldl _ _ _ _ _ _ _ _ hn, length_embedL _ _ _ _ hm]

/-- C9: the prediction path feeds the decoder stack the target ids with the
final token excluded (sliced by [:, :-1]) and hands the loss the target
sequence shifted left by one (sliced by [:, 1:]); for a target of length
tg_len the logits have tg_len - 1 rows, each with vocab_size entries, and
over a batch there is one such logit matrix per example.  Every logit is an
exact real number in this semantics, the embedding's rendering of the
no-NaN/Inf requirement. -/
theorem pred_step_spec (hidden nH d ff maxLen vocab : ℕ)
    (encEmb : ℕ → ℕ → ℝ) (encLayers : List EncP)
    (decEmb : ℕ → ℕ → ℝ) (decLayers : List DecP) (lin : LinParams)
    (inputIds decoderInputIds : List ℕ) (srcMask tgMask : List ℝ)
    (hn : 0 < nH) (hlen : decoderInputIds.length - 1 ≤ maxLen) :
    (predStepL hidden nH d ff maxLen vocab encEmb encLayers decEmb decLayers lin
        inputIds decoderInputIds srcMask tgMask)
      = (linearL vocab lin (decoderStackL hidden nH d ff maxLen decEmb decLayers
          (encoderStackL hidden nH d ff maxLen encEmb encLayers inputIds srcMask)
          srcMask decoderInputIds.dropLast tgMask.dropLast),
         decoderInputIds.drop 1) ∧
    (predStepL hidden nH d ff maxLen vocab encEmb encLayers decEmb decLayers lin
        inputIds decoderInputIds srcMask tgMask).1.length
      = decoderInputIds.length - 1 ∧
    (∀ r ∈ (predStepL hidden nH d ff maxLen vocab encEmb encLayers decEmb decLayers
        lin inputIds decoderInputIds srcMask tgMask).1, r.length = vocab) ∧
    (∀ batch, (predStepBatchL hidden nH d ff maxLen vocab encEmb encLayers decEmb
        decLayers lin batch).length = batch.length) := by
  refine ⟨rfl, ?_, ?_, ?_⟩
  · show (linearL vocab lin (decoderStackL hidden nH d ff maxLen decEmb decLayers
        (encoderStackL hidden nH d ff maxLen encEmb encLayers inputIds srcMask)
        srcMask decoderInputIds.dropLast tgMask.dropLast)).length = _
    rw [length_linearL, length_decoderStackL _ _ _ _ _ _ _ _ _ _ _ hn
      (by rw [List.length_dropLast]; omega), List.length_dropLast]
  · exact mem_linearL_length vocab lin _
  · intro batch
    unfold predStepBatchL
    rw [List.length_map]

/-- Witness for pred_step_spec on a two-token target with an empty layer
stack: the logits have one row of one entry and the loss labels are the
shifted target. -/
theorem pred_step_spec_witness :
    0 < 1 ∧ ([5, 6] : List ℕ).length - 1 ≤ 2 ∧
    ((predStepL 1 1 1 1 2 1 (fun _ _ => 0) [] (fun _ _ => 0) [] zeroLin
        [7] [5, 6] [1] [1, 1])
      = (linearL 1 zeroLin (decoderStackL 1 1 1 1 2 (fun _ _ => 0) []
          (encoderStackL 1 1 1 1 2 (fun _ _ => 0) [] [7] [1])
          [1] ([5, 6] : List ℕ).dropLast ([(1 : ℝ), 1]).dropLast),
         ([5, 6] : List ℕ).drop 1) ∧
     (predStepL 1 1 1 1 2 1 (fun _ _ => 0) [] (fun _ _ => 0) [] zeroLin
        [7] [5, 6] [1] [1, 1]).1.length = ([5, 6] : List ℕ).length - 1 ∧
     (∀ r ∈ (predStepL 1 1 1 1 2 1 (fun _ _ => 0) [] (fun _ _ => 0) [] zeroLin
        [7] [5, 6] [1] [1, 1]).1, r.length = 1) ∧
     (∀ batch, (predStepBatchL 1 1 1 1 2 1 (fun _ _ => 0) [] (fun _ _ => 0) []
        zeroLin batch).length = batch.length)) :=
  ⟨by decide, by simp,
   pred_step_spec 1 1 1 1 2 1 (fun _ _ => 0) [] (fun _ _ => 0) [] zeroLin
     [7] [5, 6] [1] [1, 1] (by decide) (by simp)⟩
